import Mathlib

/-!
Verification of the Smpl tokenizer and parser (`interpreter.py`).

A shallow embedding of the tokenizer (`Tokenizer.get_tokens`, `get_one_token`)
and the recursive-descent parser (`Parser.parse`, `parse_def`, `parse_args`,
`parse_expr`, `parse_call`, `parse_call_args`, `consume`, `peek`) of the Smpl
language, together with theorems about the published behavioural claims.

Strings are modelled as `List Char`; Python's anchored `re.match` on the seven
rules of `TOKEN_TYPES` is modelled rule by rule; errors are explicit:
`RuntimeError` from the tokenizer loop becomes `Err.lex`, `RuntimeError` from
`Parser.consume` becomes `Err.parseErr`, and the `IndexError` that Python's
`deque` raises on `popleft`/indexing past the end becomes `Err.indexError`.
Recursive parsing functions take a fuel argument; `Err.outOfFuel` is a
modelling artifact never reached when the fuel exceeds the token count.
-/

namespace Smpl

/-- A token: `type` is the kind tag (`"_def"`, `"_end"`, `"_identifier"`,
`"_integer"`, `"_oparen"`, `"_cparen"`, `"_comma"`), `val` the exact matched
lexeme. Mirrors the `Token` dataclass. -/
structure Token where
  type : String
  val : String
deriving DecidableEq, Repr

/-- AST nodes, mirroring `IntegerNode`, `VarRefNode`, `DefNode`, `CallNode`.
`CallNode.args` holds parsed expressions (the results of `parse_expr`). -/
inductive Node where
  | integerNode (val : Nat)
  | varRefNode (val : String)
  | defNode (name : String) (args : List String) (body : Node)
  | callNode (name : String) (args : List Node)
deriving Repr

/-- Failure outcomes. `lex` models the tokenizer's
`RuntimeError("Unexpected token at: ...")` carrying the remaining input;
`parseErr` models `Parser.consume`'s
`RuntimeError("Expected token_type: e, got: g")`; `indexError` models the
`IndexError` Python raises when `popleft` or indexing runs past the end of the
deque; `outOfFuel` is the fuel-exhaustion artifact of the embedding. -/
inductive Err where
  | lex (remaining : String)
  | parseErr (expected got : String)
  | indexError
  | outOfFuel
deriving DecidableEq, Repr

/-- ASCII letter, the class `[a-zA-Z]` (codes 65–90 and 97–122). -/
def isLetterChar (c : Char) : Bool :=
  (97 ≤ c.toNat && c.toNat ≤ 122) || (65 ≤ c.toNat && c.toNat ≤ 90)

/-- ASCII digit, the class `\d` on ASCII input (codes 48–57). -/
def isDigitChar (c : Char) : Bool :=
  48 ≤ c.toNat && c.toNat ≤ 57

/-- Python regex word character on ASCII input: `[a-zA-Z0-9_]` (95 = `_`). -/
def isWordChar (c : Char) : Bool :=
  isLetterChar c || isDigitChar c || c.toNat == 95

/-- Python `str.strip` whitespace (the ASCII subset): space, tab, newline,
carriage return, vertical tab (11), form feed (12). -/
def isPyWs (c : Char) : Bool :=
  c.toNat == 32 || c.toNat == 9 || c.toNat == 10 ||
  c.toNat == 13 || c.toNat == 11 || c.toNat == 12

/-- A `\b` word boundary sitting between a just-matched word character and
`rest`: it holds when `rest` is empty or starts with a non-word character. -/
def boundaryOk : List Char → Bool
  | [] => true
  | c :: _ => !isWordChar c

/-- Model of `re.match(r"\bdef\b", s)`: anchored at the start, so it succeeds exactly
when `s` starts with `def` and the following character (if any) is not a word
character; the leading `\b` holds automatically because `d` is a word
character. -/
def matchDef : List Char → Option (List Char × List Char)
  | c1 :: c2 :: c3 :: rest =>
    if c1 == 'd' && c2 == 'e' && c3 == 'f' && boundaryOk rest then
      some (['d', 'e', 'f'], rest)
    else none
  | _ => none

/-- Model of `re.match(r"\bend", s)`: anchored prefix `end` with no trailing boundary
(the pattern has no `\b` after `end`). -/
def matchEnd : List Char → Option (List Char × List Char)
  | c1 :: c2 :: c3 :: rest =>
    if c1 == 'e' && c2 == 'n' && c3 == 'd' then
      some (['e', 'n', 'd'], rest)
    else none
  | _ => none

/-- The maximal leading run of ASCII letters, with the remainder. -/
def takeLetters : List Char → List Char × List Char
  | [] => ([], [])
  | c :: rest =>
    if isLetterChar c then
      ((c :: (takeLetters rest).1), (takeLetters rest).2)
    else ([], c :: rest)

/-- The maximal leading run of ASCII digits, with the remainder. -/
def takeDigits : List Char → List Char × List Char
  | [] => ([], [])
  | c :: rest =>
    if isDigitChar c then
      ((c :: (takeDigits rest).1), (takeDigits rest).2)
    else ([], c :: rest)

/-- Model of `re.match(r"\b[a-zA-Z]+\b", s)`: the greedy letter run with a mandatory
trailing boundary. Backtracking to a shorter run cannot help, because every
shorter split point sits between two letters where `\b` fails, so the regex
succeeds exactly on the maximal run followed by a boundary. -/
def matchIdentifier (s : List Char) : Option (List Char × List Char) :=
  match s with
  | [] => none
  | c :: _ =>
    if isLetterChar c then
      if boundaryOk (takeLetters s).2 then some (takeLetters s) else none
    else none

/-- Model of `re.match(r"\b\d+\b", s)`: the greedy digit run with a mandatory trailing
boundary, by the same backtracking argument as for identifiers. -/
def matchInteger (s : List Char) : Option (List Char × List Char) :=
  match s with
  | [] => none
  | c :: _ =>
    if isDigitChar c then
      if boundaryOk (takeDigits s).2 then some (takeDigits s) else none
    else none

/-- Model of `re.match(r"\(", s)`. -/
def matchOparen : List Char → Option (List Char × List Char)
  | c :: rest => if c == '(' then some (['('], rest) else none
  | [] => none

/-- Model of `re.match(r"\)", s)`. -/
def matchCparen : List Char → Option (List Char × List Char)
  | c :: rest => if c == ')' then some ([')'], rest) else none
  | [] => none

/-- Model of `re.match(r",", s)`. -/
def matchComma : List Char → Option (List Char × List Char)
  | c :: rest => if c == ',' then some ([','], rest) else none
  | [] => none

/-- Model of `Tokenizer.get_one_token`: try the `TOKEN_TYPES` rules in their fixed
order (`_def`, `_end`, `_identifier`, `_integer`, `_oparen`, `_cparen`,
`_comma`); the first match wins and the cursor advances past it; if no rule
matches, `RuntimeError(f"Unexpected token at: {inp}")`. -/
def get_one_token (s : List Char) : Except Err (Token × List Char) :=
  match matchDef s with
  | some (v, rest) => .ok (⟨"_def", ⟨v⟩⟩, rest)
  | none =>
  match matchEnd s with
  | some (v, rest) => .ok (⟨"_end", ⟨v⟩⟩, rest)
  | none =>
  match matchIdentifier s with
  | some (v, rest) => .ok (⟨"_identifier", ⟨v⟩⟩, rest)
  | none =>
  match matchInteger s with
  | some (v, rest) => .ok (⟨"_integer", ⟨v⟩⟩, rest)
  | none =>
  match matchOparen s with
  | some (v, rest) => .ok (⟨"_oparen", ⟨v⟩⟩, rest)
  | none =>
  match matchCparen s with
  | some (v, rest) => .ok (⟨"_cparen", ⟨v⟩⟩, rest)
  | none =>
  match matchComma s with
  | some (v, rest) => .ok (⟨"_comma", ⟨v⟩⟩, rest)
  | none => .error (.lex ⟨s⟩)

/-- Python `str.strip()`: drop leading and trailing whitespace. -/
def pyStrip (s : List Char) : List Char :=
  ((s.dropWhile isPyWs).reverse.dropWhile isPyWs).reverse

/-- Model of `Tokenizer.get_tokens`: `while self.inp:` take one token, then
`self.inp = self.inp.strip()`. Note the strip happens only *after* each
emitted token, never before the first rule attempt. Fueled; each iteration
consumes at least one character, so fuel `length + 1` always suffices. -/
def get_tokens : Nat → List Char → Except Err (List Token)
  | 0, _ => .error .outOfFuel
  | _ + 1, [] => .ok []
  | fuel + 1, c :: s => do
    let (t, rest) ← get_one_token (c :: s)
    let ts ← get_tokens fuel (pyStrip rest)
    pure (t :: ts)

/-- Model of `tokenize(text)`: run the tokenizer loop on the whole input. -/
def tokenize (s : String) : Except Err (List Token) :=
  get_tokens (s.data.length + 1) s.data

/-- Model of `Parser.consume(expected_type)`: `popleft` the front token (IndexError on
an empty deque), return it when its type matches, otherwise
`RuntimeError(f"Expected token_type: {expected}, got: {got}")`. -/
def consume (expected : String) (ts : List Token) : Except Err (Token × List Token) :=
  match ts with
  | [] => .error .indexError
  | t :: rest =>
    if t.type == expected then .ok (t, rest)
    else .error (.parseErr expected t.type)

/-- Model of `Parser.peek(expected_type, offset)`: `self.tokens[offset].type ==
expected_type`; indexing past the end raises IndexError. -/
def peek (ts : List Token) (expected : String) (offset : Nat) : Except Err Bool :=
  match ts.get? offset with
  | none => .error .indexError
  | some t => .ok (t.type == expected)

/-- Python `int()` on the digit string matched by the `_integer` rule. -/
def digitsToNat (s : List Char) : Nat :=
  s.foldl (fun a c => 10 * a + (c.toNat - 48)) 0

/-- Model of `Parser.parse_variable_ref`: consume an identifier, build `VarRefNode`. -/
def parse_variable_ref (ts : List Token) : Except Err (Node × List Token) := do
  let (t, ts1) ← consume "_identifier" ts
  pure (.varRefNode t.val, ts1)

mutual

/-- Model of `Parser.parse_expr`: integer literal if `peek("_integer")`; else a call if
`peek("_identifier") and peek("_oparen", 1)` (short-circuit: the second peek
runs only when the first succeeded); else a variable reference. -/
def parse_expr : Nat → List Token → Except Err (Node × List Token)
  | 0, _ => .error .outOfFuel
  | fuel + 1, ts => do
    let isInt ← peek ts "_integer" 0
    if isInt then do
      let (t, ts1) ← consume "_integer" ts
      pure (.integerNode (digitsToNat t.val.data), ts1)
    else do
      let isId ← peek ts "_identifier" 0
      if isId then do
        let isOp ← peek ts "_oparen" 1
        if isOp then parse_call fuel ts
        else parse_variable_ref ts
      else parse_variable_ref ts

/-- Model of `Parser.parse_call`: identifier, then the parenthesised arguments. -/
def parse_call : Nat → List Token → Except Err (Node × List Token)
  | 0, _ => .error .outOfFuel
  | fuel + 1, ts => do
    let (t, ts1) ← consume "_identifier" ts
    let (args, ts2) ← parse_call_args fuel ts1
    pure (.callNode t.val args, ts2)

/-- Model of `Parser.parse_call_args`: `(`, then either an empty list when the next
token is `)`, or one expression followed by the comma loop, then `)`. -/
def parse_call_args : Nat → List Token → Except Err (List Node × List Token)
  | 0, _ => .error .outOfFuel
  | fuel + 1, ts => do
    let (_, ts1) ← consume "_oparen" ts
    let isCp ← peek ts1 "_cparen" 0
    if isCp then do
      let (_, ts2) ← consume "_cparen" ts1
      pure ([], ts2)
    else do
      let (a, ts2) ← parse_expr fuel ts1
      let (more, ts3) ← parse_call_args_rest fuel ts2
      let (_, ts4) ← consume "_cparen" ts3
      pure (a :: more, ts4)

/-- The `while self.peek("_comma")` loop inside `parse_call_args`. -/
def parse_call_args_rest : Nat → List Token → Except Err (List Node × List Token)
  | 0, _ => .error .outOfFuel
  | fuel + 1, ts => do
    let isComma ← peek ts "_comma" 0
    if isComma then do
      let (_, ts1) ← consume "_comma" ts
      let (a, ts2) ← parse_expr fuel ts1
      let (more, ts3) ← parse_call_args_rest fuel ts2
      pure (a :: more, ts3)
    else pure ([], ts)

end

/-- The `while self.peek("_comma")` loop inside `parse_args`. -/
def parse_args_rest : Nat → List Token → Except Err (List String × List Token)
  | 0, _ => .error .outOfFuel
  | fuel + 1, ts => do
    let isComma ← peek ts "_comma" 0
    if isComma then do
      let (_, ts1) ← consume "_comma" ts
      let (t, ts2) ← consume "_identifier" ts1
      let (more, ts3) ← parse_args_rest fuel ts2
      pure (t.val :: more, ts3)
    else pure ([], ts)

/-- Model of `Parser.parse_args`: `(`, an optional identifier list, `)`. -/
def parse_args (fuel : Nat) (ts : List Token) : Except Err (List String × List Token) := do
  let (_, ts1) ← consume "_oparen" ts
  let isId ← peek ts1 "_identifier" 0
  if isId then do
    let (t, ts2) ← consume "_identifier" ts1
    let (more, ts3) ← parse_args_rest fuel ts2
    let (_, ts4) ← consume "_cparen" ts3
    pure (t.val :: more, ts4)
  else do
    let (_, ts2) ← consume "_cparen" ts1
    pure ([], ts2)

/-- Model of `Parser.parse_def`: `def`, name, parameter list, body expression, `end`. -/
def parse_def (fuel : Nat) (ts : List Token) : Except Err (Node × List Token) := do
  let (_, ts1) ← consume "_def" ts
  let (nameTok, ts2) ← consume "_identifier" ts1
  let (args, ts3) ← parse_args fuel ts2
  let (body, ts4) ← parse_expr fuel ts3
  let (_, ts5) ← consume "_end" ts4
  pure (.defNode nameTok.val args body, ts5)

/-- Fuel budget for a parse of `ts`: generous, since every fuel decrement in
the mutual block accompanies the consumption of at least one token. -/
def parseFuel (ts : List Token) : Nat := 4 * ts.length + 4

/-- Model of `Parser.parse`: `parse_def` on the token deque; tokens left over after the
definition stay in the deque and are silently discarded. -/
def parse (ts : List Token) : Except Err Node :=
  (parse_def (parseFuel ts) ts).map Prod.fst

/-- The two-stage pipeline the surrounding program runs: tokenize, parse. -/
def compile (s : String) : Except Err Node := do
  let ts ← tokenize s
  parse ts

/-! ## Basic reduction helpers -/

theorem exc_bind_ok {α β : Type} (a : α) (f : α → Except Err β) :
    (Except.ok a >>= f) = f a := rfl

theorem exc_bind_err {α β : Type} (e : Err) (f : α → Except Err β) :
    ((Except.error e : Except Err α) >>= f) = Except.error e := rfl

theorem exc_pure {α : Type} (a : α) : (pure a : Except Err α) = Except.ok a := rfl

theorem peek_cons_zero (t : Token) (ts : List Token) (e : String) :
    peek (t :: ts) e 0 = .ok (t.type == e) := rfl

theorem peek_cons_one (t u : Token) (ts : List Token) (e : String) :
    peek (t :: u :: ts) e 1 = .ok (u.type == e) := rfl

theorem peek_one_nil (t : Token) (e : String) :
    peek [t] e 1 = .error .indexError := rfl

theorem char_beq_false {c d : Char} (h : c.toNat ≠ d.toNat) : (c == d) = false := by
  cases hb : c == d
  · rfl
  · exact absurd (congrArg Char.toNat (eq_of_beq hb)) h

/-! ## Character class facts -/

theorem ws_toNat_le {c : Char} (h : isPyWs c = true) : c.toNat ≤ 32 := by
  simp [isPyWs] at h
  omega

theorem ws_not_letter {c : Char} (h : isPyWs c = true) : isLetterChar c = false := by
  have := ws_toNat_le h
  simp [isLetterChar]
  omega

theorem ws_not_digit {c : Char} (h : isPyWs c = true) : isDigitChar c = false := by
  have := ws_toNat_le h
  simp [isDigitChar]
  omega

theorem letter_word {c : Char} (h : isLetterChar c = true) : isWordChar c = true := by
  simp [isWordChar, h]

theorem digit_word {c : Char} (h : isDigitChar c = true) : isWordChar c = true := by
  simp [isWordChar, h]

theorem letter_not_digit {c : Char} (h : isLetterChar c = true) : isDigitChar c = false := by
  simp [isLetterChar] at h
  simp [isDigitChar]
  omega

theorem digit_not_letter {c : Char} (h : isDigitChar c = true) : isLetterChar c = false := by
  simp [isDigitChar] at h
  simp [isLetterChar]
  omega

theorem letter_not_ws {c : Char} (h : isLetterChar c = true) : isPyWs c = false := by
  simp [isLetterChar] at h
  simp [isPyWs]
  omega

theorem digit_not_ws {c : Char} (h : isDigitChar c = true) : isPyWs c = false := by
  simp [isDigitChar] at h
  simp [isPyWs]
  omega

/-! ## Rule-failure lemmas: which inputs a lexical rule rejects -/

theorem matchDef_head {c : Char} (s : List Char) (h : (c == 'd') = false) :
    matchDef (c :: s) = none := by
  match s with
  | [] => rfl
  | [_] => rfl
  | _ :: _ :: _ => simp [matchDef, h]

theorem matchEnd_head {c : Char} (s : List Char) (h : (c == 'e') = false) :
    matchEnd (c :: s) = none := by
  match s with
  | [] => rfl
  | [_] => rfl
  | _ :: _ :: _ => simp [matchEnd, h]

theorem matchIdentifier_head {c : Char} (s : List Char) (h : isLetterChar c = false) :
    matchIdentifier (c :: s) = none := by
  simp [matchIdentifier, h]

theorem matchInteger_head {c : Char} (s : List Char) (h : isDigitChar c = false) :
    matchInteger (c :: s) = none := by
  simp [matchInteger, h]

theorem matchOparen_head {c : Char} (s : List Char) (h : (c == '(') = false) :
    matchOparen (c :: s) = none := by
  simp [matchOparen, h]

theorem matchCparen_head {c : Char} (s : List Char) (h : (c == ')') = false) :
    matchCparen (c :: s) = none := by
  simp [matchCparen, h]

theorem matchComma_head {c : Char} (s : List Char) (h : (c == ',') = false) :
    matchComma (c :: s) = none := by
  simp [matchComma, h]

/-- On an input whose first character is whitespace, every rule of
`TOKEN_TYPES` fails, so `get_one_token` raises the lexer error carrying the
whole remaining input. -/
theorem get_one_token_ws {c : Char} (s : List Char) (h : isPyWs c = true) :
    get_one_token (c :: s) = .error (.lex ⟨c :: s⟩) := by
  have h32 := ws_toNat_le h
  have hd : (c == 'd') = false := char_beq_false (by intro he; rw [he] at h32; exact absurd h32 (by decide))
  have he : (c == 'e') = false := char_beq_false (by intro he; rw [he] at h32; exact absurd h32 (by decide))
  have hop : (c == '(') = false := char_beq_false (by intro he; rw [he] at h32; exact absurd h32 (by decide))
  have hcp : (c == ')') = false := char_beq_false (by intro he; rw [he] at h32; exact absurd h32 (by decide))
  have hcm : (c == ',') = false := char_beq_false (by intro he; rw [he] at h32; exact absurd h32 (by decide))
  rw [get_one_token, matchDef_head s hd, matchEnd_head s he,
    matchIdentifier_head s (ws_not_letter h), matchInteger_head s (ws_not_digit h),
    matchOparen_head s hop, matchCparen_head s hcp, matchComma_head s hcm]

/-! ## Claim theorems: concrete examples -/

/-- C1: tokenizing and parsing `def add(a, b) add(a, b) end` succeeds and
produces exactly the definition node named `add` with parameters `a`, `b`
whose body is the call `add(a, b)` with two variable-reference arguments. -/
theorem C1_example_add :
    compile "def add(a, b) add(a, b) end" =
      .ok (.defNode "add" ["a", "b"]
        (.callNode "add" [.varRefNode "a", .varRefNode "b"])) := rfl

/-- C5: keyword rules are tried before the identifier rule, so the input
`end` alone tokenizes to a single `_end` keyword token and never to an
identifier token. -/
theorem C5_end_keyword : tokenize "end" = .ok [⟨"_end", "end"⟩] := rfl

/-- C6: the `_end` rule matches `end` as a prefix with no trailing word
boundary, so any input starting with the three characters `end` yields an
`_end` token with lexeme `end`, and in particular `endpoint` tokenizes to the
`_end` keyword followed by the identifier `point`, never to one identifier. -/
theorem C6_end_prefix : ∀ s : List Char,
    get_one_token ('e' :: 'n' :: 'd' :: s) = .ok (⟨"_end", "end"⟩, s) ∧
    tokenize "endpoint" = .ok [⟨"_end", "end"⟩, ⟨"_identifier", "point"⟩] :=
  fun _ => ⟨rfl, rfl⟩

/-- C8: parsing the malformed input `def f( 1 end` fails with the parse error
expecting `_cparen` but finding `_integer`. -/
theorem C8_missing_rparen :
    compile "def f( 1 end" = .error (.parseErr "_cparen" "_integer") := rfl

/-- No lexical rule matches the input `s`: all seven `TOKEN_TYPES` rules
reject it at the current position. -/
def noRuleMatches (s : List Char) : Prop :=
  matchDef s = none ∧ matchEnd s = none ∧ matchIdentifier s = none ∧
  matchInteger s = none ∧ matchOparen s = none ∧ matchCparen s = none ∧
  matchComma s = none

instance (s : List Char) : Decidable (noRuleMatches s) := by
  unfold noRuleMatches
  infer_instance

theorem get_one_token_fail {s : List Char} (h : noRuleMatches s) :
    get_one_token s = .error (.lex ⟨s⟩) := by
  obtain ⟨h1, h2, h3, h4, h5, h6, h7⟩ := h
  rw [get_one_token, h1, h2, h3, h4, h5, h6, h7]

/-- C7: whenever the tokenizer loop stands at a nonempty remaining input on
which no lexical rule matches, it fails with the lexer error carrying exactly
that remaining text; in particular `def f() $ end` fails with the error
carrying the remaining text starting at the `$`. -/
theorem C7_lex_error :
    (∀ (fuel : Nat) (c : Char) (rest : List Char), noRuleMatches (c :: rest) →
      get_tokens (fuel + 1) (c :: rest) = .error (.lex ⟨c :: rest⟩)) ∧
    tokenize "def f() $ end" = .error (.lex "$ end") := by
  refine ⟨fun fuel c rest h => ?_, rfl⟩
  rw [get_tokens, get_one_token_fail h, exc_bind_err]

/-- Witness for C7 at the concrete stuck position `$ end`. -/
theorem C7_lex_error_witness :
    get_tokens 3 ('$' :: ' ' :: 'e' :: 'n' :: 'd' :: []) =
      .error (.lex ⟨'$' :: ' ' :: 'e' :: 'n' :: 'd' :: []⟩) :=
  C7_lex_error.1 2 '$' (' ' :: 'e' :: 'n' :: 'd' :: []) (by decide)

/-! ## C4: consume on an exhausted token sequence -/

/-- C4 counterexample: on an exhausted token sequence, `consume` (and hence
`parse` on an empty sequence) fails with the deque's `indexError`, which
carries neither the expected kind nor an "exhausted" marker — not with a
`parseErr`. -/
theorem C4_counterexample :
    consume "_def" [] = .error .indexError ∧ parse [] = .error .indexError :=
  ⟨rfl, rfl⟩

/-- C4 amended: for every expected kind, `consume` on an exhausted token
sequence fails with the bare `indexError` raised by `popleft` on the empty
deque (carrying no expected kind and no exhausted marker), and `parse` of the
empty token sequence fails the same way. -/
theorem C4_amended_indexError : ∀ expected : String,
    consume expected [] = .error .indexError ∧ parse [] = .error .indexError :=
  fun _ => ⟨rfl, rfl⟩

/-! ## C3: leading whitespace -/

/-- C3 counterexample: prefixing the valid input `end` with a single space
makes tokenization fail with a lexer error carrying the whole input, while
`end` itself tokenizes successfully — so whitespace-prefixing does not
preserve the token sequence. -/
theorem C3_counterexample :
    tokenize " end" = .error (.lex " end") ∧
    tokenize "end" = .ok [⟨"_end", "end"⟩] :=
  ⟨rfl, rfl⟩

/-- C3 amended: the scanner strips whitespace only after each emitted token,
never before the first rule attempt, so every input that begins with a
whitespace character fails with the lexer error carrying the entire input. -/
theorem C3_amended_leading_ws (c : Char) (s : List Char) (h : isPyWs c = true) :
    tokenize ⟨c :: s⟩ = .error (.lex ⟨c :: s⟩) := by
  show get_tokens ((c :: s).length + 1) (c :: s) = _
  rw [List.length_cons, get_tokens, get_one_token_ws s h, exc_bind_err]

/-- Witness for C3 amended at the concrete input `" end"`. -/
theorem C3_amended_leading_ws_witness :
    tokenize ⟨' ' :: 'e' :: 'n' :: 'd' :: []⟩ =
      .error (.lex ⟨' ' :: 'e' :: 'n' :: 'd' :: []⟩) :=
  C3_amended_leading_ws ' ' ('e' :: 'n' :: 'd' :: []) (by decide)

/-! ## C2: call versus variable-reference disambiguation -/

theorem if_bool_false {α : Type} (a b : α) : (if false = true then a else b) = b := rfl

theorem if_bool_true {α : Type} (a b : α) : (if true = true then a else b) = a := rfl

theorem consume_cons_ok {t : Token} {e : String} (ts : List Token)
    (h : (t.type == e) = true) : consume e (t :: ts) = .ok (t, ts) := by
  simp [consume, h]

/-- A successful `parse_call` always yields a `callNode`. -/
theorem parse_call_shape {fuel : Nat} {ts r : List Token} {n : Node}
    (h : parse_call fuel ts = .ok (n, r)) :
    ∃ name args, n = Node.callNode name args := by
  cases fuel with
  | zero => exact absurd h (by simp [parse_call])
  | succ fuel =>
    rw [parse_call] at h
    cases hc : consume "_identifier" ts with
    | error e => rw [hc, exc_bind_err] at h; exact absurd h (by simp)
    | ok p =>
      obtain ⟨t, ts1⟩ := p
      rw [hc, exc_bind_ok] at h
      dsimp only at h
      cases ha : parse_call_args fuel ts1 with
      | error e => rw [ha, exc_bind_err] at h; exact absurd h (by simp)
      | ok q =>
        obtain ⟨args, ts2⟩ := q
        rw [ha, exc_bind_ok] at h
        dsimp only at h
        rw [exc_pure] at h
        injection h with h
        injection h with h1 h2
        exact ⟨t.val, args, h1.symm⟩

/-- C2 counterexample: when the identifier is the last token of the sequence,
`parse_expr` does not produce a variable reference — the mandatory one-token
lookahead indexes past the end of the deque and fails with `indexError`. -/
theorem C2_counterexample :
    parse_expr 2 [⟨"_identifier", "x"⟩] = .error .indexError := rfl

/-- C2 amended: when the next token is an identifier, `parse_expr` peeks one
token further before consuming anything: if that token is an opening
parenthesis, any successful result is a `callNode`; if it is any other token,
the result is the `varRefNode` of the identifier with only the identifier
consumed; but when the identifier is the last token of the sequence, the
lookahead itself raises `indexError` instead of producing a variable
reference. -/
theorem C2_amended (fuel : Nat) (t : Token) (rest : List Token)
    (hid : t.type = "_identifier") :
    (∀ u ts node tsOut, rest = u :: ts → u.type = "_oparen" →
        parse_expr (fuel + 1) (t :: rest) = .ok (node, tsOut) →
        ∃ name args, node = Node.callNode name args) ∧
    (∀ u ts, rest = u :: ts → u.type ≠ "_oparen" →
        parse_expr (fuel + 1) (t :: rest) = .ok (.varRefNode t.val, rest)) ∧
    (rest = [] → parse_expr (fuel + 1) (t :: rest) = .error .indexError) := by
  have hb1 : (("_identifier" : String) == "_integer") = false := by decide
  have hb2 : (("_identifier" : String) == "_identifier") = true := by decide
  have hp0 : peek (t :: rest) "_integer" 0 = .ok false := by
    rw [peek_cons_zero, hid, hb1]
  have hp1 : peek (t :: rest) "_identifier" 0 = .ok true := by
    rw [peek_cons_zero, hid, hb2]
  refine ⟨?_, ?_, ?_⟩
  · rintro u ts node tsOut rfl hop h
    rw [parse_expr, hp0, exc_bind_ok, if_bool_false, hp1, exc_bind_ok, if_bool_true,
      peek_cons_one, hop] at h
    have hb3 : (("_oparen" : String) == "_oparen") = true := by decide
    rw [hb3, exc_bind_ok, if_bool_true] at h
    exact parse_call_shape h
  · rintro u ts rfl hop
    have hb4 : (u.type == "_oparen") = false := beq_eq_false_iff_ne.mpr hop
    rw [parse_expr, hp0, exc_bind_ok, if_bool_false, hp1, exc_bind_ok, if_bool_true,
      peek_cons_one, hb4, exc_bind_ok, if_bool_false]
    have hc : consume "_identifier" (t :: u :: ts) = .ok (t, u :: ts) :=
      consume_cons_ok _ (by rw [hid]; exact hb2)
    rw [parse_variable_ref, hc, exc_bind_ok]
    rfl
  · rintro rfl
    rw [parse_expr, hp0, exc_bind_ok, if_bool_false, hp1, exc_bind_ok, if_bool_true,
      peek_one_nil, exc_bind_err]

/-- Witness for C2 amended: an identifier followed by a closing parenthesis
parses as a variable reference. -/
theorem C2_amended_witness :
    parse_expr 2 [⟨"_identifier", "x"⟩, ⟨"_cparen", ")"⟩] =
      .ok (.varRefNode "x", [⟨"_cparen", ")"⟩]) :=
  (C2_amended 1 ⟨"_identifier", "x"⟩ [⟨"_cparen", ")"⟩] rfl).2.1
    ⟨"_cparen", ")"⟩ [] rfl (by decide)

/-! ## C9: shape of the tokens the scanner emits -/

theorem takeLetters_cons_pos {c : Char} (r : List Char) (h : isLetterChar c = true) :
    takeLetters (c :: r) = (c :: (takeLetters r).1, (takeLetters r).2) := by
  rw [takeLetters, if_pos h]

theorem takeLetters_cons_neg {c : Char} (r : List Char) (h : isLetterChar c = false) :
    takeLetters (c :: r) = ([], c :: r) := by
  rw [takeLetters, if_neg (by simp [h])]

theorem takeDigits_cons_pos {c : Char} (r : List Char) (h : isDigitChar c = true) :
    takeDigits (c :: r) = (c :: (takeDigits r).1, (takeDigits r).2) := by
  rw [takeDigits, if_pos h]

theorem takeDigits_cons_neg {c : Char} (r : List Char) (h : isDigitChar c = false) :
    takeDigits (c :: r) = ([], c :: r) := by
  rw [takeDigits, if_neg (by simp [h])]

theorem takeLetters_split (s : List Char) : (takeLetters s).1 ++ (takeLetters s).2 = s := by
  induction s with
  | nil => rfl
  | cons c rest ih =>
    by_cases h : isLetterChar c = true
    · rw [takeLetters_cons_pos rest h]
      simpa using ih
    · rw [takeLetters_cons_neg rest (by simpa using h)]
      rfl

theorem takeLetters_all (s : List Char) : ∀ c ∈ (takeLetters s).1, isLetterChar c = true := by
  induction s with
  | nil => intro c hc; exact absurd hc (by simp [takeLetters])
  | cons a rest ih =>
    intro c hc
    by_cases h : isLetterChar a = true
    · rw [takeLetters_cons_pos rest h] at hc
      rcases List.mem_cons.mp hc with rfl | hc
      · exact h
      · exact ih c hc
    · rw [takeLetters_cons_neg rest (by simpa using h)] at hc
      exact absurd hc (by simp)

theorem takeDigits_split (s : List Char) : (takeDigits s).1 ++ (takeDigits s).2 = s := by
  induction s with
  | nil => rfl
  | cons c rest ih =>
    by_cases h : isDigitChar c = true
    · rw [takeDigits_cons_pos rest h]
      simpa using ih
    · rw [takeDigits_cons_neg rest (by simpa using h)]
      rfl

theorem takeDigits_all (s : List Char) : ∀ c ∈ (takeDigits s).1, isDigitChar c = true := by
  induction s with
  | nil => intro c hc; exact absurd hc (by simp [takeDigits])
  | cons a rest ih =>
    intro c hc
    by_cases h : isDigitChar a = true
    · rw [takeDigits_cons_pos rest h] at hc
      rcases List.mem_cons.mp hc with rfl | hc
      · exact h
      · exact ih c hc
    · rw [takeDigits_cons_neg rest (by simpa using h)] at hc
      exact absurd hc (by simp)

theorem takeLetters_append {v : List Char} (hv : ∀ c ∈ v, isLetterChar c = true)
    (r : List Char) :
    takeLetters (v ++ r) = (v ++ (takeLetters r).1, (takeLetters r).2) := by
  induction v with
  | nil => simp
  | cons c v ih =>
    have hc : isLetterChar c = true := hv c (by simp)
    rw [List.cons_append, takeLetters_cons_pos _ hc, ih (fun d hd => hv d (by simp [hd]))]
    simp

theorem takeDigits_append {v : List Char} (hv : ∀ c ∈ v, isDigitChar c = true)
    (r : List Char) :
    takeDigits (v ++ r) = (v ++ (takeDigits r).1, (takeDigits r).2) := by
  induction v with
  | nil => simp
  | cons c v ih =>
    have hc : isDigitChar c = true := hv c (by simp)
    rw [List.cons_append, takeDigits_cons_pos _ hc, ih (fun d hd => hv d (by simp [hd]))]
    simp

theorem matchDef_pos (r : List Char) (h : boundaryOk r = true) :
    matchDef ('d' :: 'e' :: 'f' :: r) = some (['d', 'e', 'f'], r) := by
  simp [matchDef, h]

theorem matchEnd_pos (r : List Char) :
    matchEnd ('e' :: 'n' :: 'd' :: r) = some (['e', 'n', 'd'], r) := rfl

theorem matchDef_some {s : List Char} {p : List Char × List Char}
    (h : matchDef s = some p) :
    s = 'd' :: 'e' :: 'f' :: p.2 ∧ p.1 = ['d', 'e', 'f'] ∧ boundaryOk p.2 = true := by
  match s with
  | [] => exact absurd h (by simp [matchDef])
  | [c1] => exact absurd h (by simp [matchDef])
  | [c1, c2] => exact absurd h (by simp [matchDef])
  | c1 :: c2 :: c3 :: rest =>
    rw [matchDef] at h
    by_cases hc : (c1 == 'd' && c2 == 'e' && c3 == 'f' && boundaryOk rest) = true
    · rw [if_pos hc] at h
      injection h with h
      subst h
      simp only [Bool.and_eq_true, beq_iff_eq] at hc
      obtain ⟨⟨⟨h1, h2⟩, h3⟩, h4⟩ := hc
      subst h1; subst h2; subst h3
      exact ⟨rfl, rfl, h4⟩
    · rw [if_neg hc] at h
      exact absurd h (by simp)

theorem matchEnd_some {s : List Char} {p : List Char × List Char}
    (h : matchEnd s = some p) :
    s = 'e' :: 'n' :: 'd' :: p.2 ∧ p.1 = ['e', 'n', 'd'] := by
  match s with
  | [] => exact absurd h (by simp [matchEnd])
  | [c1] => exact absurd h (by simp [matchEnd])
  | [c1, c2] => exact absurd h (by simp [matchEnd])
  | c1 :: c2 :: c3 :: rest =>
    rw [matchEnd] at h
    by_cases hc : (c1 == 'e' && c2 == 'n' && c3 == 'd') = true
    · rw [if_pos hc] at h
      injection h with h
      subst h
      simp only [Bool.and_eq_true, beq_iff_eq] at hc
      obtain ⟨⟨h1, h2⟩, h3⟩ := hc
      subst h1; subst h2; subst h3
      exact ⟨rfl, rfl⟩
    · rw [if_neg hc] at h
      exact absurd h (by simp)

theorem matchIdentifier_some {s : List Char} {p : List Char × List Char}
    (h : matchIdentifier s = some p) :
    p = takeLetters s ∧ boundaryOk (takeLetters s).2 = true ∧
    ∃ c rest, s = c :: rest ∧ isLetterChar c = true := by
  match s with
  | [] => exact absurd h (by simp [matchIdentifier])
  | c :: rest =>
    rw [matchIdentifier] at h
    by_cases h1 : isLetterChar c = true
    · rw [if_pos h1] at h
      by_cases h2 : boundaryOk (takeLetters (c :: rest)).2 = true
      · rw [if_pos h2] at h
        injection h with h
        exact ⟨h.symm, h2, c, rest, rfl, h1⟩
      · rw [if_neg h2] at h
        exact absurd h (by simp)
    · rw [if_neg h1] at h
      exact absurd h (by simp)

theorem matchInteger_some {s : List Char} {p : List Char × List Char}
    (h : matchInteger s = some p) :
    p = takeDigits s ∧ boundaryOk (takeDigits s).2 = true ∧
    ∃ c rest, s = c :: rest ∧ isDigitChar c = true := by
  match s with
  | [] => exact absurd h (by simp [matchInteger])
  | c :: rest =>
    rw [matchInteger] at h
    by_cases h1 : isDigitChar c = true
    · rw [if_pos h1] at h
      by_cases h2 : boundaryOk (takeDigits (c :: rest)).2 = true
      · rw [if_pos h2] at h
        injection h with h
        exact ⟨h.symm, h2, c, rest, rfl, h1⟩
      · rw [if_neg h2] at h
        exact absurd h (by simp)
    · rw [if_neg h1] at h
      exact absurd h (by simp)

theorem matchOparen_some {s : List Char} {p : List Char × List Char}
    (h : matchOparen s = some p) : s = '(' :: p.2 ∧ p.1 = ['('] := by
  match s with
  | [] => exact absurd h (by simp [matchOparen])
  | c :: rest =>
    rw [matchOparen] at h
    by_cases hc : (c == '(') = true
    · rw [if_pos hc] at h
      injection h with h
      subst h
      rw [show c = '(' from eq_of_beq hc]
      exact ⟨rfl, rfl⟩
    · rw [if_neg hc] at h
      exact absurd h (by simp)

theorem matchCparen_some {s : List Char} {p : List Char × List Char}
    (h : matchCparen s = some p) : s = ')' :: p.2 ∧ p.1 = [')'] := by
  match s with
  | [] => exact absurd h (by simp [matchCparen])
  | c :: rest =>
    rw [matchCparen] at h
    by_cases hc : (c == ')') = true
    · rw [if_pos hc] at h
      injection h with h
      subst h
      rw [show c = ')' from eq_of_beq hc]
      exact ⟨rfl, rfl⟩
    · rw [if_neg hc] at h
      exact absurd h (by simp)

theorem matchComma_some {s : List Char} {p : List Char × List Char}
    (h : matchComma s = some p) : s = ',' :: p.2 ∧ p.1 = [','] := by
  match s with
  | [] => exact absurd h (by simp [matchComma])
  | c :: rest =>
    rw [matchComma] at h
    by_cases hc : (c == ',') = true
    · rw [if_pos hc] at h
      injection h with h
      subst h
      rw [show c = ',' from eq_of_beq hc]
      exact ⟨rfl, rfl⟩
    · rw [if_neg hc] at h
      exact absurd h (by simp)

/-- The input starts with the three characters `end`. -/
def beginsWithEnd : List Char → Bool
  | c1 :: c2 :: c3 :: _ => c1 == 'e' && c2 == 'n' && c3 == 'd'
  | _ => false

theorem beginsWithEnd_shape {v : List Char} (h : beginsWithEnd v = true) :
    ∃ v3, v = 'e' :: 'n' :: 'd' :: v3 := by
  match v with
  | [] => exact absurd h (by simp [beginsWithEnd])
  | [a] => exact absurd h (by simp [beginsWithEnd])
  | [a, b] => exact absurd h (by simp [beginsWithEnd])
  | a :: b :: c :: v3 =>
    rw [beginsWithEnd] at h
    simp only [Bool.and_eq_true, beq_iff_eq] at h
    obtain ⟨⟨h1, h2⟩, h3⟩ := h
    subst h1; subst h2; subst h3
    exact ⟨v3, rfl⟩

/-- Shape invariant of every token the scanner can emit: the kind determines
the possible lexemes, and — because the keyword rules are tried first — an
identifier lexeme never begins with `end` and is never exactly `def`. -/
def goodVal (ty : String) (w : List Char) : Prop :=
  (ty = "_def" ∧ w = ['d', 'e', 'f']) ∨
  (ty = "_end" ∧ w = ['e', 'n', 'd']) ∨
  (ty = "_identifier" ∧ w ≠ [] ∧ (∀ c ∈ w, isLetterChar c = true) ∧
    beginsWithEnd w = false ∧ w ≠ ['d', 'e', 'f']) ∨
  (ty = "_integer" ∧ w ≠ [] ∧ (∀ c ∈ w, isDigitChar c = true)) ∨
  (ty = "_oparen" ∧ w = ['(']) ∨
  (ty = "_cparen" ∧ w = [')']) ∨
  (ty = "_comma" ∧ w = [','])

def goodTok (t : Token) : Prop := goodVal t.type t.val.data

/-- Every token `get_one_token` emits satisfies the shape invariant. -/
theorem get_one_token_good {s : List Char} {t : Token} {rest : List Char}
    (h : get_one_token s = .ok (t, rest)) : goodTok t := by
  rw [get_one_token] at h
  cases h1 : matchDef s with
  | some p =>
    obtain ⟨v, r⟩ := p
    rw [h1] at h
    dsimp only at h
    obtain ⟨hs, hv, hb⟩ := matchDef_some h1
    injection h with h
    injection h with ht hr
    subst ht
    dsimp only at hv
    subst hv
    exact Or.inl ⟨rfl, rfl⟩
  | none =>
  rw [h1] at h
  dsimp only at h
  cases h2 : matchEnd s with
  | some p =>
    obtain ⟨v, r⟩ := p
    rw [h2] at h
    dsimp only at h
    obtain ⟨hs, hv⟩ := matchEnd_some h2
    injection h with h
    injection h with ht hr
    subst ht
    dsimp only at hv
    subst hv
    exact Or.inr (Or.inl ⟨rfl, rfl⟩)
  | none =>
  rw [h2] at h
  dsimp only at h
  cases h3 : matchIdentifier s with
  | some p =>
    obtain ⟨v, r⟩ := p
    rw [h3] at h
    dsimp only at h
    obtain ⟨hp, hbd, c, rest', hs, hc⟩ := matchIdentifier_some h3
    injection h with h
    injection h with ht hr
    subst ht
    have hv1 : v = (takeLetters s).1 := by rw [← hp]
    have hv2 : r = (takeLetters s).2 := by rw [← hp]
    have hall : ∀ d ∈ v, isLetterChar d = true := by
      rw [hv1]; exact takeLetters_all s
    have hne : v ≠ [] := by
      rw [hv1, hs, takeLetters_cons_pos _ hc]
      simp
    have hsplit : v ++ r = s := by
      rw [hv1, hv2]; exact takeLetters_split s
    have hnend : beginsWithEnd v = false := by
      cases hbe : beginsWithEnd v with
      | false => rfl
      | true =>
        obtain ⟨v3, hv3⟩ := beginsWithEnd_shape hbe
        rw [hv3] at hsplit
        rw [show ('e' :: 'n' :: 'd' :: v3) ++ r = 'e' :: 'n' :: 'd' :: (v3 ++ r) from rfl]
          at hsplit
        rw [← hsplit, matchEnd_pos] at h2
        exact absurd h2 (by simp)
    have hndef : v ≠ ['d', 'e', 'f'] := by
      intro hd
      rw [hd] at hsplit
      rw [show (['d', 'e', 'f'] : List Char) ++ r = 'd' :: 'e' :: 'f' :: r from rfl]
        at hsplit
      have hbr : boundaryOk r = true := by rw [hv2]; exact hbd
      rw [← hsplit, matchDef_pos r hbr] at h1
      exact absurd h1 (by simp)
    exact Or.inr (Or.inr (Or.inl ⟨rfl, hne, hall, hnend, hndef⟩))
  | none =>
  rw [h3] at h
  dsimp only at h
  cases h4 : matchInteger s with
  | some p =>
    obtain ⟨v, r⟩ := p
    rw [h4] at h
    dsimp only at h
    obtain ⟨hp, hbd, c, rest', hs, hc⟩ := matchInteger_some h4
    injection h with h
    injection h with ht hr
    subst ht
    have hv1 : v = (takeDigits s).1 := by rw [← hp]
    have hall : ∀ d ∈ v, isDigitChar d = true := by
      rw [hv1]; exact takeDigits_all s
    have hne : v ≠ [] := by
      rw [hv1, hs, takeDigits_cons_pos _ hc]
      simp
    exact Or.inr (Or.inr (Or.inr (Or.inl ⟨rfl, hne, hall⟩)))
  | none =>
  rw [h4] at h
  dsimp only at h
  cases h5 : matchOparen s with
  | some p =>
    obtain ⟨v, r⟩ := p
    rw [h5] at h
    dsimp only at h
    obtain ⟨hs, hv⟩ := matchOparen_some h5
    injection h with h
    injection h with ht hr
    subst ht
    dsimp only at hv
    subst hv
    exact Or.inr (Or.inr (Or.inr (Or.inr (Or.inl ⟨rfl, rfl⟩))))
  | none =>
  rw [h5] at h
  dsimp only at h
  cases h6 : matchCparen s with
  | some p =>
    obtain ⟨v, r⟩ := p
    rw [h6] at h
    dsimp only at h
    obtain ⟨hs, hv⟩ := matchCparen_some h6
    injection h with h
    injection h with ht hr
    subst ht
    dsimp only at hv
    subst hv
    exact Or.inr (Or.inr (Or.inr (Or.inr (Or.inr (Or.inl ⟨rfl, rfl⟩)))))
  | none =>
  rw [h6] at h
  dsimp only at h
  cases h7 : matchComma s with
  | some p =>
    obtain ⟨v, r⟩ := p
    rw [h7] at h
    dsimp only at h
    obtain ⟨hs, hv⟩ := matchComma_some h7
    injection h with h
    injection h with ht hr
    subst ht
    dsimp only at hv
    subst hv
    exact Or.inr (Or.inr (Or.inr (Or.inr (Or.inr (Or.inr ⟨rfl, rfl⟩)))))
  | none =>
  rw [h7] at h
  dsimp only at h
  exact absurd h (by simp)

/-- Every token in a successful `get_tokens` run satisfies the invariant. -/
theorem get_tokens_good : ∀ (fuel : Nat) (s : List Char) {ts : List Token},
    get_tokens fuel s = .ok ts → ∀ t ∈ ts, goodTok t := by
  intro fuel
  induction fuel with
  | zero => intro s ts h; exact absurd h (by simp [get_tokens])
  | succ fuel ih =>
    intro s ts h
    cases s with
    | nil =>
      rw [get_tokens] at h
      injection h with h
      subst h
      intro t ht
      exact absurd ht (by simp)
    | cons c s' =>
      rw [get_tokens] at h
      cases h1 : get_one_token (c :: s') with
      | error e => rw [h1, exc_bind_err] at h; exact absurd h (by simp)
      | ok p =>
        obtain ⟨t0, rest⟩ := p
        rw [h1, exc_bind_ok] at h
        dsimp only at h
        cases h2 : get_tokens fuel (pyStrip rest) with
        | error e => rw [h2, exc_bind_err] at h; exact absurd h (by simp)
        | ok ts' =>
          rw [h2, exc_bind_ok, exc_pure] at h
          injection h with h
          subst h
          intro t ht
          rcases List.mem_cons.mp ht with rfl | ht
          · exact get_one_token_good h1
          · exact ih _ h2 t ht

theorem mem_of_getLast {l : List Char} {a : Char} (h : l.getLast? = some a) : a ∈ l := by
  rw [← List.head?_reverse] at h
  have hmem : a ∈ l.reverse := by
    cases hm : l.reverse with
    | nil => rw [hm] at h; exact absurd h (by simp)
    | cons c l' =>
      rw [hm] at h
      simp only [List.head?_cons, Option.some.injEq] at h
      subst h
      exact List.mem_cons_self _ _
  exact List.mem_reverse.mp hmem

/-- Splitting `w ++ r` along a three-character prefix: when `w` is nonempty,
`r` is empty or starts with a space, and the second and third prefix
characters are not spaces, the whole prefix lies inside `w`. -/
theorem split3 {w r : List Char} {x y z : Char} {tail : List Char}
    (hne : w ≠ [])
    (hr : r = [] ∨ ∃ r', r = ' ' :: r')
    (hy : y ≠ ' ') (hz : z ≠ ' ')
    (heq : w ++ r = x :: y :: z :: tail) :
    ∃ w3, w = x :: y :: z :: w3 ∧ tail = w3 ++ r := by
  rcases w with _ | ⟨a, _ | ⟨b, _ | ⟨cc, w3⟩⟩⟩
  · exact absurd rfl hne
  · simp only [List.cons_append, List.nil_append] at heq
    injection heq with h1 h2
    rcases hr with rfl | ⟨r', rfl⟩
    · exact absurd h2 (by simp)
    · injection h2 with h3 h4
      exact absurd h3.symm hy
  · simp only [List.cons_append, List.nil_append] at heq
    injection heq with h1 h2
    injection h2 with h3 h4
    rcases hr with rfl | ⟨r', rfl⟩
    · exact absurd h4 (by simp)
    · injection h4 with h5 h6
      exact absurd h5.symm hz
  · simp only [List.cons_append] at heq
    injection heq with h1 h2
    injection h2 with h3 h4
    injection h4 with h5 h6
    subst h1; subst h3; subst h5
    exact ⟨w3, rfl, h6.symm⟩

/-- Re-scanning a good token's lexeme followed by nothing or by a single
space reproduces exactly that token, leaving exactly the separator. -/
theorem retok_one {t : Token} {r : List Char} (hg : goodTok t)
    (hr : r = [] ∨ ∃ r', r = ' ' :: r') :
    get_one_token (t.val.data ++ r) = .ok (t, r) := by
  obtain ⟨ty, v⟩ := t
  obtain ⟨w⟩ := v
  have hg' : goodVal ty w := hg
  have hbr : boundaryOk r = true := by
    rcases hr with rfl | ⟨r', rfl⟩
    · rfl
    · rfl
  rcases hg' with ⟨rfl, rfl⟩ | ⟨rfl, rfl⟩ | ⟨rfl, hne, hall, hnend, hndef⟩ |
    ⟨rfl, hne, hall⟩ | ⟨rfl, rfl⟩ | ⟨rfl, rfl⟩ | ⟨rfl, rfl⟩
  · -- _def
    rw [show (['d', 'e', 'f'] : List Char) ++ r = 'd' :: 'e' :: 'f' :: r from rfl,
      get_one_token, matchDef_pos r hbr]
  · -- _end
    rfl
  · -- _identifier
    have htlr : takeLetters r = ([], r) := by
      rcases hr with rfl | ⟨r', rfl⟩
      · rfl
      · exact takeLetters_cons_neg r' (by decide)
    have hmd : matchDef (w ++ r) = none := by
      cases hmd0 : matchDef (w ++ r) with
      | none => rfl
      | some p =>
        exfalso
        obtain ⟨heq, hp1, hpb⟩ := matchDef_some hmd0
        obtain ⟨w3, rfl, htail⟩ := split3 hne hr (by decide) (by decide) heq
        cases w3 with
        | nil => exact hndef rfl
        | cons c4 w4 =>
          have hc4 : isLetterChar c4 = true := hall c4 (by simp)
          rw [htail, show ((c4 :: w4) ++ r) = c4 :: (w4 ++ r) from rfl,
            boundaryOk, letter_word hc4] at hpb
          simp at hpb
    have hme : matchEnd (w ++ r) = none := by
      cases hme0 : matchEnd (w ++ r) with
      | none => rfl
      | some p =>
        exfalso
        obtain ⟨heq, hp1⟩ := matchEnd_some hme0
        obtain ⟨w3, rfl, htail⟩ := split3 hne hr (by decide) (by decide) heq
        rw [show beginsWithEnd ('e' :: 'n' :: 'd' :: w3) = true from rfl] at hnend
        exact Bool.noConfusion hnend
    obtain ⟨a, w', rfl⟩ : ∃ a w', w = a :: w' := by
      cases w with
      | nil => exact absurd rfl hne
      | cons a w' => exact ⟨a, w', rfl⟩
    have ha : isLetterChar a = true := hall a (by simp)
    have htl : takeLetters ((a :: w') ++ r) = (a :: w', r) := by
      rw [takeLetters_append hall r, htlr]
      simp
    have hmi : matchIdentifier ((a :: w') ++ r) = some (a :: w', r) := by
      rw [show (a :: w') ++ r = a :: (w' ++ r) from rfl, matchIdentifier, if_pos ha,
        show a :: (w' ++ r) = (a :: w') ++ r from rfl, htl, if_pos hbr]
    rw [get_one_token, hmd, hme, hmi]
  · -- _integer
    have htdr : takeDigits r = ([], r) := by
      rcases hr with rfl | ⟨r', rfl⟩
      · rfl
      · exact takeDigits_cons_neg r' (by decide)
    obtain ⟨a, w', rfl⟩ : ∃ a w', w = a :: w' := by
      cases w with
      | nil => exact absurd rfl hne
      | cons a w' => exact ⟨a, w', rfl⟩
    have ha : isDigitChar a = true := hall a (by simp)
    have hmd : matchDef ((a :: w') ++ r) = none := by
      cases hmd0 : matchDef ((a :: w') ++ r) with
      | none => rfl
      | some p =>
        exfalso
        obtain ⟨heq, hp1, hpb⟩ := matchDef_some hmd0
        simp only [List.cons_append] at heq
        injection heq with h1 h2
        rw [h1] at ha
        exact absurd ha (by decide)
    have hme : matchEnd ((a :: w') ++ r) = none := by
      cases hme0 : matchEnd ((a :: w') ++ r) with
      | none => rfl
      | some p =>
        exfalso
        obtain ⟨heq, hp1⟩ := matchEnd_some hme0
        simp only [List.cons_append] at heq
        injection heq with h1 h2
        rw [h1] at ha
        exact absurd ha (by decide)
    have hmi : matchIdentifier ((a :: w') ++ r) = none := by
      rw [show (a :: w') ++ r = a :: (w' ++ r) from rfl]
      exact matchIdentifier_head _ (digit_not_letter ha)
    have htd : takeDigits ((a :: w') ++ r) = (a :: w', r) := by
      rw [takeDigits_append hall r, htdr]
      simp
    have hmint : matchInteger ((a :: w') ++ r) = some (a :: w', r) := by
      rw [show (a :: w') ++ r = a :: (w' ++ r) from rfl, matchInteger, if_pos ha,
        show a :: (w' ++ r) = (a :: w') ++ r from rfl, htd, if_pos hbr]
    rw [get_one_token, hmd, hme, hmi, hmint]
  · -- _oparen
    rw [show (['('] : List Char) ++ r = '(' :: r from rfl, get_one_token,
      matchDef_head r (by decide), matchEnd_head r (by decide),
      matchIdentifier_head r (by decide), matchInteger_head r (by decide)]
    rfl
  · -- _cparen
    rw [show ([')'] : List Char) ++ r = ')' :: r from rfl, get_one_token,
      matchDef_head r (by decide), matchEnd_head r (by decide),
      matchIdentifier_head r (by decide), matchInteger_head r (by decide),
      matchOparen_head r (by decide)]
    rfl
  · -- _comma
    rw [show ([','] : List Char) ++ r = ',' :: r from rfl, get_one_token,
      matchDef_head r (by decide), matchEnd_head r (by decide),
      matchIdentifier_head r (by decide), matchInteger_head r (by decide),
      matchOparen_head r (by decide), matchCparen_head r (by decide)]
    rfl

/-- The lexemes of a token sequence concatenated in order with single spaces
inserted between them. -/
def joinToks : List Token → List Char
  | [] => []
  | [t] => t.val.data
  | t :: ts => t.val.data ++ ' ' :: joinToks ts

/-- Lexemes joined with single spaces, as a string. -/
def joinLexemes (ts : List Token) : String := ⟨joinToks ts⟩

theorem joinToks_single (t : Token) : joinToks [t] = t.val.data := rfl

theorem joinToks_cons_cons (t u : Token) (ts : List Token) :
    joinToks (t :: u :: ts) = t.val.data ++ ' ' :: joinToks (u :: ts) := rfl

theorem goodTok_val_ne_nil {t : Token} (h : goodTok t) : t.val.data ≠ [] := by
  rcases h with ⟨_, hv⟩ | ⟨_, hv⟩ | ⟨_, hv, _⟩ | ⟨_, hv, _⟩ | ⟨_, hv⟩ | ⟨_, hv⟩ | ⟨_, hv⟩ <;>
    simp [hv]

theorem goodTok_head_not_ws {t : Token} (h : goodTok t) :
    ∀ c l, t.val.data = c :: l → isPyWs c = false := by
  intro c l hc
  rcases h with ⟨_, hv⟩ | ⟨_, hv⟩ | ⟨_, _, hall, _⟩ | ⟨_, _, hall⟩ | ⟨_, hv⟩ | ⟨_, hv⟩ |
    ⟨_, hv⟩
  · rw [hv] at hc; injection hc with h1 _; rw [← h1]; decide
  · rw [hv] at hc; injection hc with h1 _; rw [← h1]; decide
  · exact letter_not_ws (hall c (by rw [hc]; simp))
  · exact digit_not_ws (hall c (by rw [hc]; simp))
  · rw [hv] at hc; injection hc with h1 _; rw [← h1]; decide
  · rw [hv] at hc; injection hc with h1 _; rw [← h1]; decide
  · rw [hv] at hc; injection hc with h1 _; rw [← h1]; decide

theorem goodTok_last_not_ws {t : Token} (h : goodTok t) :
    ∀ c, t.val.data.getLast? = some c → isPyWs c = false := by
  intro c hc
  rcases h with ⟨_, hv⟩ | ⟨_, hv⟩ | ⟨_, _, hall, _⟩ | ⟨_, _, hall⟩ | ⟨_, hv⟩ | ⟨_, hv⟩ |
    ⟨_, hv⟩
  · rw [hv] at hc; simp at hc; rw [← hc]; decide
  · rw [hv] at hc; simp at hc; rw [← hc]; decide
  · exact letter_not_ws (hall c (mem_of_getLast hc))
  · exact digit_not_ws (hall c (mem_of_getLast hc))
  · rw [hv] at hc; simp at hc; rw [← hc]; decide
  · rw [hv] at hc; simp at hc; rw [← hc]; decide
  · rw [hv] at hc; simp at hc; rw [← hc]; decide

theorem joinToks_ne_nil {t : Token} (ts : List Token) (h : goodTok t) :
    joinToks (t :: ts) ≠ [] := by
  cases ts with
  | nil => exact goodTok_val_ne_nil h
  | cons u ts => rw [joinToks_cons_cons]; simp

theorem joinToks_head_not_ws : ∀ ts : List Token, (∀ t ∈ ts, goodTok t) →
    ∀ c l, joinToks ts = c :: l → isPyWs c = false := by
  intro ts hg c l hc
  cases ts with
  | nil => exact absurd hc (by simp [joinToks])
  | cons t ts =>
    have hgt : goodTok t := hg t (by simp)
    cases ts with
    | nil => exact goodTok_head_not_ws hgt c l hc
    | cons u ts' =>
      rw [joinToks_cons_cons] at hc
      cases hv : t.val.data with
      | nil => exact absurd hv (goodTok_val_ne_nil hgt)
      | cons a w =>
        rw [hv, List.cons_append] at hc
        injection hc with h1 _
        rw [← h1]
        exact goodTok_head_not_ws hgt a w hv

theorem joinToks_last_not_ws : ∀ ts : List Token, (∀ t ∈ ts, goodTok t) →
    ∀ c, (joinToks ts).getLast? = some c → isPyWs c = false := by
  intro ts
  induction ts with
  | nil => intro _ c h; exact absurd h (by simp [joinToks])
  | cons t ts ih =>
    intro hg c h
    cases ts with
    | nil => exact goodTok_last_not_ws (hg t (by simp)) c h
    | cons u ts' =>
      rw [joinToks_cons_cons, List.getLast?_append_cons] at h
      have hJ : joinToks (u :: ts') ≠ [] := joinToks_ne_nil ts' (hg u (by simp))
      rw [show (' ' :: joinToks (u :: ts')) = [' '] ++ joinToks (u :: ts') from rfl,
        List.getLast?_append_of_ne_nil _ hJ] at h
      exact ih (fun x hx => hg x (by simp [hx])) c h

theorem joinToks_length : ∀ ts : List Token, (∀ t ∈ ts, goodTok t) →
    ts.length ≤ (joinToks ts).length := by
  intro ts
  induction ts with
  | nil => intro _; simp [joinToks]
  | cons t ts ih =>
    intro hg
    have h1 : 1 ≤ t.val.data.length := by
      cases hv : t.val.data with
      | nil => exact absurd hv (goodTok_val_ne_nil (hg t (by simp)))
      | cons a w => simp
    cases ts with
    | nil =>
      rw [joinToks_single]
      simpa using h1
    | cons u ts' =>
      have h2 := ih (fun x hx => hg x (by simp [hx]))
      rw [joinToks_cons_cons]
      simp only [List.length_append, List.length_cons] at h2 ⊢
      omega

theorem pyStrip_nil : pyStrip [] = [] := rfl

/-- Stripping a single leading space from a list whose own first and last
characters are not whitespace just removes that space. -/
theorem pyStrip_space {l : List Char}
    (hhead : ∀ c l', l = c :: l' → isPyWs c = false)
    (hlast : ∀ c, l.getLast? = some c → isPyWs c = false) :
    pyStrip (' ' :: l) = l := by
  rw [pyStrip]
  rw [List.dropWhile_cons_of_pos (by decide : isPyWs ' ' = true)]
  have h1 : l.dropWhile isPyWs = l := by
    cases hl : l with
    | nil => rfl
    | cons c l' => exact List.dropWhile_cons_of_neg (by simp [hhead c l' hl])
  rw [h1]
  have h2 : l.reverse.dropWhile isPyWs = l.reverse := by
    cases hm : l.reverse with
    | nil => rfl
    | cons c l' =>
      have hgl : l.getLast? = some c := by rw [← List.head?_reverse, hm]; rfl
      exact List.dropWhile_cons_of_neg (by simp [hlast c hgl])
  rw [h2, List.reverse_reverse]

/-- Re-tokenizing the space-joined lexemes of good tokens reproduces exactly
the original token sequence. -/
theorem retok_join : ∀ ts : List Token, (∀ t ∈ ts, goodTok t) →
    ∀ fuel, ts.length < fuel → get_tokens fuel (joinToks ts) = .ok ts := by
  intro ts
  induction ts with
  | nil =>
    intro _ fuel hf
    cases fuel with
    | zero => omega
    | succ f => rfl
  | cons t ts ih =>
    intro hg fuel hf
    cases fuel with
    | zero => omega
    | succ f =>
      have hgt : goodTok t := hg t (by simp)
      cases ts with
      | nil =>
        cases hv : t.val.data with
        | nil => exact absurd hv (goodTok_val_ne_nil hgt)
        | cons a w =>
          have h1 : get_one_token (a :: w) = .ok (t, []) := by
            have h0 := retok_one hgt (Or.inl rfl)
            rwa [List.append_nil, hv] at h0
          rw [joinToks_single, hv, get_tokens, h1, exc_bind_ok]
          dsimp only
          cases f with
          | zero => simp only [List.length_cons, List.length_nil] at hf; omega
          | succ f' => rfl
      | cons u ts' =>
        cases hv : t.val.data with
        | nil => exact absurd hv (goodTok_val_ne_nil hgt)
        | cons a w =>
          have h1 : get_one_token ((a :: w) ++ ' ' :: joinToks (u :: ts')) =
              .ok (t, ' ' :: joinToks (u :: ts')) := by
            have h0 := retok_one hgt (Or.inr ⟨joinToks (u :: ts'), rfl⟩)
            rwa [hv] at h0
          have h2 : pyStrip (' ' :: joinToks (u :: ts')) = joinToks (u :: ts') :=
            pyStrip_space
              (joinToks_head_not_ws (u :: ts') (fun x hx => hg x (by simp [hx])))
              (joinToks_last_not_ws (u :: ts') (fun x hx => hg x (by simp [hx])))
          have h3 : get_tokens f (joinToks (u :: ts')) = .ok (u :: ts') := by
            refine ih (fun x hx => hg x (by simp [hx])) f ?_
            simp only [List.length_cons] at hf ⊢
            omega
          rw [joinToks_cons_cons, hv, List.cons_append, get_tokens, ← List.cons_append,
            h1, exc_bind_ok]
          dsimp only
          rw [h2, h3, exc_bind_ok]
          rfl

/-- C9: for every input that tokenizes and parses successfully, concatenating
the lexemes of its tokens in order with single spaces inserted, then
re-tokenizing, yields exactly the same token sequence, and re-parsing that
re-tokenization yields a structurally identical AST. -/
theorem C9_roundtrip (s : String) (ts : List Token) (ast : Node)
    (h1 : tokenize s = .ok ts) (h2 : parse ts = .ok ast) :
    tokenize (joinLexemes ts) = .ok ts ∧ compile (joinLexemes ts) = .ok ast := by
  rw [tokenize] at h1
  have good : ∀ t ∈ ts, goodTok t := get_tokens_good _ _ h1
  have hlen := joinToks_length ts good
  have h3 : tokenize (joinLexemes ts) = .ok ts := by
    show get_tokens ((joinToks ts).length + 1) (joinToks ts) = .ok ts
    exact retok_join ts good _ (by omega)
  refine ⟨h3, ?_⟩
  rw [compile, h3, exc_bind_ok, h2]

/-- Witness for C9 at the example input `def add(a, b) add(a, b) end`. -/
theorem C9_roundtrip_witness :
    tokenize (joinLexemes [⟨"_def", "def"⟩, ⟨"_identifier", "add"⟩, ⟨"_oparen", "("⟩,
        ⟨"_identifier", "a"⟩, ⟨"_comma", ","⟩, ⟨"_identifier", "b"⟩, ⟨"_cparen", ")"⟩,
        ⟨"_identifier", "add"⟩, ⟨"_oparen", "("⟩, ⟨"_identifier", "a"⟩, ⟨"_comma", ","⟩,
        ⟨"_identifier", "b"⟩, ⟨"_cparen", ")"⟩, ⟨"_end", "end"⟩]) =
      .ok [⟨"_def", "def"⟩, ⟨"_identifier", "add"⟩, ⟨"_oparen", "("⟩,
        ⟨"_identifier", "a"⟩, ⟨"_comma", ","⟩, ⟨"_identifier", "b"⟩, ⟨"_cparen", ")"⟩,
        ⟨"_identifier", "add"⟩, ⟨"_oparen", "("⟩, ⟨"_identifier", "a"⟩, ⟨"_comma", ","⟩,
        ⟨"_identifier", "b"⟩, ⟨"_cparen", ")"⟩, ⟨"_end", "end"⟩] ∧
    compile (joinLexemes [⟨"_def", "def"⟩, ⟨"_identifier", "add"⟩, ⟨"_oparen", "("⟩,
        ⟨"_identifier", "a"⟩, ⟨"_comma", ","⟩, ⟨"_identifier", "b"⟩, ⟨"_cparen", ")"⟩,
        ⟨"_identifier", "add"⟩, ⟨"_oparen", "("⟩, ⟨"_identifier", "a"⟩, ⟨"_comma", ","⟩,
        ⟨"_identifier", "b"⟩, ⟨"_cparen", ")"⟩, ⟨"_end", "end"⟩]) =
      .ok (.defNode "add" ["a", "b"]
        (.callNode "add" [.varRefNode "a", .varRefNode "b"])) :=
  C9_roundtrip "def add(a, b) add(a, b) end" _ _ rfl rfl

/-! ## C10: the parser ignores tokens after the definition -/

theorem consume_append {e : String} {ts ts' ex : List Token} {t : Token}
    (h : consume e ts = .ok (t, ts')) :
    consume e (ts ++ ex) = .ok (t, ts' ++ ex) := by
  cases ts with
  | nil => exact absurd h (by simp [consume])
  | cons t0 rest =>
    rw [consume] at h
    by_cases hc : (t0.type == e) = true
    · rw [if_pos hc] at h
      injection h with h
      injection h with h1 h2
      subst h1; subst h2
      rw [List.cons_append, consume, if_pos hc]
    · rw [if_neg hc] at h
      exact Except.noConfusion h

theorem peek_append {ts ex : List Token} {e : String} {k : Nat} {b : Bool}
    (h : peek ts e k = .ok b) : peek (ts ++ ex) e k = .ok b := by
  cases hk : ts.get? k with
  | none =>
    rw [peek, hk] at h
    exact Except.noConfusion h
  | some u =>
    rw [peek, hk] at h
    have hlt : k < ts.length := by
      rcases List.get?_eq_some.mp hk with ⟨h1, _⟩
      exact h1
    rw [peek, List.get?_append hlt, hk]
    exact h

theorem pvr_append {ts ts' ex : List Token} {n : Node}
    (h : parse_variable_ref ts = .ok (n, ts')) :
    parse_variable_ref (ts ++ ex) = .ok (n, ts' ++ ex) := by
  rw [parse_variable_ref] at h
  cases hc : consume "_identifier" ts with
  | error e => rw [hc, exc_bind_err] at h; exact Except.noConfusion h
  | ok p =>
    obtain ⟨t, ts1⟩ := p
    rw [hc, exc_bind_ok] at h
    dsimp only at h
    rw [parse_variable_ref, consume_append hc, exc_bind_ok]
    dsimp only
    rw [exc_pure] at h
    injection h with h
    injection h with h1 h2
    subst h1; subst h2
    rfl

/-- Frame and fuel-monotonicity for the expression-level parsers: a
successful parse is unchanged by appending extra tokens after the consumed
prefix and by raising the fuel. -/
theorem parse_frame : ∀ fuel : Nat,
    (∀ fuel' ts ex a rest, fuel ≤ fuel' → parse_expr fuel ts = .ok (a, rest) →
      parse_expr fuel' (ts ++ ex) = .ok (a, rest ++ ex)) ∧
    (∀ fuel' ts ex a rest, fuel ≤ fuel' → parse_call fuel ts = .ok (a, rest) →
      parse_call fuel' (ts ++ ex) = .ok (a, rest ++ ex)) ∧
    (∀ fuel' ts ex a rest, fuel ≤ fuel' → parse_call_args fuel ts = .ok (a, rest) →
      parse_call_args fuel' (ts ++ ex) = .ok (a, rest ++ ex)) ∧
    (∀ fuel' ts ex a rest, fuel ≤ fuel' → parse_call_args_rest fuel ts = .ok (a, rest) →
      parse_call_args_rest fuel' (ts ++ ex) = .ok (a, rest ++ ex)) := by
  intro fuel
  induction fuel with
  | zero =>
    refine ⟨?_, ?_, ?_, ?_⟩ <;>
      exact fun fuel' ts ex a rest hle h =>
        absurd h (by simp [parse_expr, parse_call, parse_call_args, parse_call_args_rest])
  | succ fuel ih =>
    obtain ⟨ihE, ihC, ihA, ihR⟩ := ih
    refine ⟨?_, ?_, ?_, ?_⟩
    · -- parse_expr
      intro fuel' ts ex a rest hle h
      obtain ⟨f', rfl⟩ : ∃ f', fuel' = f' + 1 := by
        cases fuel' with
        | zero => omega
        | succ f' => exact ⟨f', rfl⟩
      have hle' : fuel ≤ f' := by omega
      rw [parse_expr] at h
      cases hp : peek ts "_integer" 0 with
      | error e => rw [hp, exc_bind_err] at h; exact Except.noConfusion h
      | ok bInt =>
        rw [hp, exc_bind_ok] at h
        rw [parse_expr, peek_append hp, exc_bind_ok]
        cases bInt with
        | true =>
          rw [if_bool_true] at h ⊢
          cases hc : consume "_integer" ts with
          | error e => rw [hc, exc_bind_err] at h; exact Except.noConfusion h
          | ok p =>
            obtain ⟨t, ts1⟩ := p
            rw [hc, exc_bind_ok] at h
            dsimp only at h
            rw [consume_append hc, exc_bind_ok]
            dsimp only
            rw [exc_pure] at h
            injection h with h
            injection h with h1 h2
            subst h1; subst h2
            rfl
        | false =>
          rw [if_bool_false] at h ⊢
          cases hp2 : peek ts "_identifier" 0 with
          | error e => rw [hp2, exc_bind_err] at h; exact Except.noConfusion h
          | ok bId =>
            rw [hp2, exc_bind_ok] at h
            rw [peek_append hp2, exc_bind_ok]
            cases bId with
            | true =>
              rw [if_bool_true] at h ⊢
              cases hp3 : peek ts "_oparen" 1 with
              | error e => rw [hp3, exc_bind_err] at h; exact Except.noConfusion h
              | ok bOp =>
                rw [hp3, exc_bind_ok] at h
                rw [peek_append hp3, exc_bind_ok]
                cases bOp with
                | true =>
                  rw [if_bool_true] at h ⊢
                  exact ihC f' ts ex a rest hle' h
                | false =>
                  rw [if_bool_false] at h ⊢
                  exact pvr_append h
            | false =>
              rw [if_bool_false] at h ⊢
              exact pvr_append h
    · -- parse_call
      intro fuel' ts ex a rest hle h
      obtain ⟨f', rfl⟩ : ∃ f', fuel' = f' + 1 := by
        cases fuel' with
        | zero => omega
        | succ f' => exact ⟨f', rfl⟩
      have hle' : fuel ≤ f' := by omega
      rw [parse_call] at h
      cases hc : consume "_identifier" ts with
      | error e => rw [hc, exc_bind_err] at h; exact Except.noConfusion h
      | ok p =>
        obtain ⟨t, ts1⟩ := p
        rw [hc, exc_bind_ok] at h
        dsimp only at h
        rw [parse_call, consume_append hc, exc_bind_ok]
        dsimp only
        cases ha : parse_call_args fuel ts1 with
        | error e => rw [ha, exc_bind_err] at h; exact Except.noConfusion h
        | ok q =>
          obtain ⟨args, ts2⟩ := q
          rw [ha, exc_bind_ok] at h
          dsimp only at h
          rw [ihA f' ts1 ex args ts2 hle' ha, exc_bind_ok]
          dsimp only
          rw [exc_pure] at h
          injection h with h
          injection h with h1 h2
          subst h1; subst h2
          rfl
    · -- parse_call_args
      intro fuel' ts ex a rest hle h
      obtain ⟨f', rfl⟩ : ∃ f', fuel' = f' + 1 := by
        cases fuel' with
        | zero => omega
        | succ f' => exact ⟨f', rfl⟩
      have hle' : fuel ≤ f' := by omega
      rw [parse_call_args] at h
      cases hc : consume "_oparen" ts with
      | error e => rw [hc, exc_bind_err] at h; exact Except.noConfusion h
      | ok p =>
        obtain ⟨t0, ts1⟩ := p
        rw [hc, exc_bind_ok] at h
        dsimp only at h
        rw [parse_call_args, consume_append hc, exc_bind_ok]
        dsimp only
        cases hp : peek ts1 "_cparen" 0 with
        | error e => rw [hp, exc_bind_err] at h; exact Except.noConfusion h
        | ok bCp =>
          rw [hp, exc_bind_ok] at h
          rw [peek_append hp, exc_bind_ok]
          cases bCp with
          | true =>
            rw [if_bool_true] at h ⊢
            cases hc2 : consume "_cparen" ts1 with
            | error e => rw [hc2, exc_bind_err] at h; exact Except.noConfusion h
            | ok p2 =>
              obtain ⟨t2, ts2⟩ := p2
              rw [hc2, exc_bind_ok] at h
              dsimp only at h
              rw [consume_append hc2, exc_bind_ok]
              dsimp only
              rw [exc_pure] at h
              injection h with h
              injection h with h1 h2
              subst h1; subst h2
              rfl
          | false =>
            rw [if_bool_false] at h ⊢
            cases he : parse_expr fuel ts1 with
            | error e => rw [he, exc_bind_err] at h; exact Except.noConfusion h
            | ok pe =>
              obtain ⟨a1, ts2⟩ := pe
              rw [he, exc_bind_ok] at h
              dsimp only at h
              rw [ihE f' ts1 ex a1 ts2 hle' he, exc_bind_ok]
              dsimp only
              cases hrst : parse_call_args_rest fuel ts2 with
              | error e => rw [hrst, exc_bind_err] at h; exact Except.noConfusion h
              | ok pr =>
                obtain ⟨more, ts3⟩ := pr
                rw [hrst, exc_bind_ok] at h
                dsimp only at h
                rw [ihR f' ts2 ex more ts3 hle' hrst, exc_bind_ok]
                dsimp only
                cases hc3 : consume "_cparen" ts3 with
                | error e => rw [hc3, exc_bind_err] at h; exact Except.noConfusion h
                | ok p3 =>
                  obtain ⟨t3, ts4⟩ := p3
                  rw [hc3, exc_bind_ok] at h
                  dsimp only at h
                  rw [consume_append hc3, exc_bind_ok]
                  dsimp only
                  rw [exc_pure] at h
                  injection h with h
                  injection h with h1 h2
                  subst h1; subst h2
                  rfl
    · -- parse_call_args_rest
      intro fuel' ts ex a rest hle h
      obtain ⟨f', rfl⟩ : ∃ f', fuel' = f' + 1 := by
        cases fuel' with
        | zero => omega
        | succ f' => exact ⟨f', rfl⟩
      have hle' : fuel ≤ f' := by omega
      rw [parse_call_args_rest] at h
      cases hp : peek ts "_comma" 0 with
      | error e => rw [hp, exc_bind_err] at h; exact Except.noConfusion h
      | ok bC =>
        rw [hp, exc_bind_ok] at h
        rw [parse_call_args_rest, peek_append hp, exc_bind_ok]
        cases bC with
        | true =>
          rw [if_bool_true] at h ⊢
          cases hc : consume "_comma" ts with
          | error e => rw [hc, exc_bind_err] at h; exact Except.noConfusion h
          | ok p =>
            obtain ⟨t0, ts1⟩ := p
            rw [hc, exc_bind_ok] at h
            dsimp only at h
            rw [consume_append hc, exc_bind_ok]
            dsimp only
            cases he : parse_expr fuel ts1 with
            | error e => rw [he, exc_bind_err] at h; exact Except.noConfusion h
            | ok pe =>
              obtain ⟨a1, ts2⟩ := pe
              rw [he, exc_bind_ok] at h
              dsimp only at h
              rw [ihE f' ts1 ex a1 ts2 hle' he, exc_bind_ok]
              dsimp only
              cases hrst : parse_call_args_rest fuel ts2 with
              | error e => rw [hrst, exc_bind_err] at h; exact Except.noConfusion h
              | ok pr =>
                obtain ⟨more, ts3⟩ := pr
                rw [hrst, exc_bind_ok] at h
                dsimp only at h
                rw [ihR f' ts2 ex more ts3 hle' hrst, exc_bind_ok]
                dsimp only
                rw [exc_pure] at h
                injection h with h
                injection h with h1 h2
                subst h1; subst h2
                rfl
        | false =>
          rw [if_bool_false] at h ⊢
          rw [exc_pure] at h
          injection h with h
          injection h with h1 h2
          subst h1; subst h2
          rfl

theorem parse_args_rest_frame : ∀ fuel fuel' : Nat, ∀ ts ex rest : List Token,
    ∀ a : List String, fuel ≤ fuel' → parse_args_rest fuel ts = .ok (a, rest) →
    parse_args_rest fuel' (ts ++ ex) = .ok (a, rest ++ ex) := by
  intro fuel
  induction fuel with
  | zero =>
    intro fuel' ts ex rest a hle h
    exact absurd h (by simp [parse_args_rest])
  | succ fuel ih =>
    intro fuel' ts ex rest a hle h
    obtain ⟨f', rfl⟩ : ∃ f', fuel' = f' + 1 := by
      cases fuel' with
      | zero => omega
      | succ f' => exact ⟨f', rfl⟩
    have hle' : fuel ≤ f' := by omega
    rw [parse_args_rest] at h
    cases hp : peek ts "_comma" 0 with
    | error e => rw [hp, exc_bind_err] at h; exact Except.noConfusion h
    | ok bC =>
      rw [hp, exc_bind_ok] at h
      rw [parse_args_rest, peek_append hp, exc_bind_ok]
      cases bC with
      | true =>
        rw [if_bool_true] at h ⊢
        cases hc : consume "_comma" ts with
        | error e => rw [hc, exc_bind_err] at h; exact Except.noConfusion h
        | ok p =>
          obtain ⟨t0, ts1⟩ := p
          rw [hc, exc_bind_ok] at h
          dsimp only at h
          rw [consume_append hc, exc_bind_ok]
          dsimp only
          cases hc2 : consume "_identifier" ts1 with
          | error e => rw [hc2, exc_bind_err] at h; exact Except.noConfusion h
          | ok p2 =>
            obtain ⟨t1, ts2⟩ := p2
            rw [hc2, exc_bind_ok] at h
            dsimp only at h
            rw [consume_append hc2, exc_bind_ok]
            dsimp only
            cases hr : parse_args_rest fuel ts2 with
            | error e => rw [hr, exc_bind_err] at h; exact Except.noConfusion h
            | ok pr =>
              obtain ⟨more, ts3⟩ := pr
              rw [hr, exc_bind_ok] at h
              dsimp only at h
              rw [ih f' ts2 ex ts3 more hle' hr, exc_bind_ok]
              dsimp only
              rw [exc_pure] at h
              injection h with h
              injection h with h1 h2
              subst h1; subst h2
              rfl
      | false =>
        rw [if_bool_false] at h ⊢
        rw [exc_pure] at h
        injection h with h
        injection h with h1 h2
        subst h1; subst h2
        rfl

theorem parse_args_frame {fuel fuel' : Nat} {ts ex rest : List Token} {a : List String}
    (hle : fuel ≤ fuel') (h : parse_args fuel ts = .ok (a, rest)) :
    parse_args fuel' (ts ++ ex) = .ok (a, rest ++ ex) := by
  rw [parse_args] at h
  cases hc : consume "_oparen" ts with
  | error e => rw [hc, exc_bind_err] at h; exact Except.noConfusion h
  | ok p =>
    obtain ⟨t0, ts1⟩ := p
    rw [hc, exc_bind_ok] at h
    dsimp only at h
    rw [parse_args, consume_append hc, exc_bind_ok]
    dsimp only
    cases hp : peek ts1 "_identifier" 0 with
    | error e => rw [hp, exc_bind_err] at h; exact Except.noConfusion h
    | ok bId =>
      rw [hp, exc_bind_ok] at h
      rw [peek_append hp, exc_bind_ok]
      cases bId with
      | true =>
        rw [if_bool_true] at h ⊢
        cases hc2 : consume "_identifier" ts1 with
        | error e => rw [hc2, exc_bind_err] at h; exact Except.noConfusion h
        | ok p2 =>
          obtain ⟨t1, ts2⟩ := p2
          rw [hc2, exc_bind_ok] at h
          dsimp only at h
          rw [consume_append hc2, exc_bind_ok]
          dsimp only
          cases hr : parse_args_rest fuel ts2 with
          | error e => rw [hr, exc_bind_err] at h; exact Except.noConfusion h
          | ok pr =>
            obtain ⟨more, ts3⟩ := pr
            rw [hr, exc_bind_ok] at h
            dsimp only at h
            rw [parse_args_rest_frame fuel fuel' ts2 ex ts3 more hle hr, exc_bind_ok]
            dsimp only
            cases hc3 : consume "_cparen" ts3 with
            | error e => rw [hc3, exc_bind_err] at h; exact Except.noConfusion h
            | ok p3 =>
              obtain ⟨t3, ts4⟩ := p3
              rw [hc3, exc_bind_ok] at h
              dsimp only at h
              rw [consume_append hc3, exc_bind_ok]
              dsimp only
              rw [exc_pure] at h
              injection h with h
              injection h with h1 h2
              subst h1; subst h2
              rfl
      | false =>
        rw [if_bool_false] at h ⊢
        cases hc2 : consume "_cparen" ts1 with
        | error e => rw [hc2, exc_bind_err] at h; exact Except.noConfusion h
        | ok p2 =>
          obtain ⟨t1, ts2⟩ := p2
          rw [hc2, exc_bind_ok] at h
          dsimp only at h
          rw [consume_append hc2, exc_bind_ok]
          dsimp only
          rw [exc_pure] at h
          injection h with h
          injection h with h1 h2
          subst h1; subst h2
          rfl

/-- Frame and fuel-monotonicity for `parse_def`: a successful parse of a
definition is unchanged by appending extra tokens and raising the fuel. -/
theorem parse_def_frame {fuel fuel' : Nat} (ex : List Token) {ts rest : List Token}
    {a : Node} (hle : fuel ≤ fuel') (h : parse_def fuel ts = .ok (a, rest)) :
    parse_def fuel' (ts ++ ex) = .ok (a, rest ++ ex) := by
  rw [parse_def] at h
  cases hc1 : consume "_def" ts with
  | error e => rw [hc1, exc_bind_err] at h; exact Except.noConfusion h
  | ok p1 =>
    obtain ⟨t1, ts1⟩ := p1
    rw [hc1, exc_bind_ok] at h
    dsimp only at h
    rw [parse_def, consume_append hc1, exc_bind_ok]
    dsimp only
    cases hc2 : consume "_identifier" ts1 with
    | error e => rw [hc2, exc_bind_err] at h; exact Except.noConfusion h
    | ok p2 =>
      obtain ⟨t2, ts2⟩ := p2
      rw [hc2, exc_bind_ok] at h
      dsimp only at h
      rw [consume_append hc2, exc_bind_ok]
      dsimp only
      cases ha : parse_args fuel ts2 with
      | error e => rw [ha, exc_bind_err] at h; exact Except.noConfusion h
      | ok pa =>
        obtain ⟨args, ts3⟩ := pa
        rw [ha, exc_bind_ok] at h
        dsimp only at h
        rw [parse_args_frame hle ha, exc_bind_ok]
        dsimp only
        cases he : parse_expr fuel ts3 with
        | error e => rw [he, exc_bind_err] at h; exact Except.noConfusion h
        | ok pe =>
          obtain ⟨body, ts4⟩ := pe
          rw [he, exc_bind_ok] at h
          dsimp only at h
          rw [(parse_frame fuel).1 fuel' ts3 ex body ts4 hle he, exc_bind_ok]
          dsimp only
          cases hc3 : consume "_end" ts4 with
          | error e => rw [hc3, exc_bind_err] at h; exact Except.noConfusion h
          | ok p3 =>
            obtain ⟨t3, ts5⟩ := p3
            rw [hc3, exc_bind_ok] at h
            dsimp only at h
            rw [consume_append hc3, exc_bind_ok]
            dsimp only
            rw [exc_pure] at h
            injection h with h
            injection h with h1 h2
            subst h1; subst h2
            rfl

/-- C10: `parse` does not require the token sequence to be exhausted — for
every token sequence beginning with a complete well-formed definition
(`parse_def` consumes it entirely), `parse` of that sequence followed by any
extra tokens succeeds and returns the AST of the first definition, silently
ignoring everything after its closing `end`. -/
theorem C10_ignores_trailing (pre extra : List Token) (ast : Node)
    (h : parse_def (parseFuel pre) pre = .ok (ast, [])) :
    parse (pre ++ extra) = .ok ast := by
  have hle : parseFuel pre ≤ parseFuel (pre ++ extra) := by
    simp only [parseFuel, List.length_append]
    omega
  have h2 := parse_def_frame extra hle h
  rw [List.nil_append] at h2
  rw [parse, h2]
  rfl

/-- Witness for C10: a complete `def f() 1 end` followed by a second complete
`def g() 2 end` parses to the first definition only. -/
theorem C10_ignores_trailing_witness :
    parse ([⟨"_def", "def"⟩, ⟨"_identifier", "f"⟩, ⟨"_oparen", "("⟩, ⟨"_cparen", ")"⟩,
        ⟨"_integer", "1"⟩, ⟨"_end", "end"⟩] ++
      [⟨"_def", "def"⟩, ⟨"_identifier", "g"⟩, ⟨"_oparen", "("⟩, ⟨"_cparen", ")"⟩,
        ⟨"_integer", "2"⟩, ⟨"_end", "end"⟩]) =
      .ok (.defNode "f" [] (.integerNode 1)) :=
  C10_ignores_trailing _ _ _ rfl

end Smpl
